import Mathlib

/-!
Verification development for the SharedMemory repository (SharedMemory.h).

The C++ source defines three classes:
* `MemoryManager` — a first-fit block allocator with defragmentation over a
  fixed-size byte buffer;
* `RemoteMemory`  — the segment owner: creates a named OS shared-memory
  object, maps it, and layers one `MemoryManager` over the mapping;
* `MemoryClient`  — the segment client: attaches to existing named regions,
  one `MemoryManager` per attached region.

Shallow embedding conventions:
* the byte buffer behind `_addr` is modelled as a `List Nat` stored in the
  manager state (C++ keeps a raw pointer; owner and manager alias the same
  bytes, so the model stores the bytes once, inside the manager);
* `std::memcpy` is modelled as a pointwise rebuild of the destination list
  (snapshot semantics: all source bytes are read from the pre-call list);
* `size_t` becomes `Nat`, block ids (`int`) become `Int` with sentinel `-1`;
* the `AbortIf`/`AbortIfNot` macros print a diagnostic and return the given
  value when the condition holds / fails; they are modelled as plain
  conditional returns;
* OS calls (`shm_open`, `ftruncate`, `mmap`, `mlock`, `munlock`, `msync`,
  `munmap`, `close`, `shm_unlink`) are external to the repository and are
  modelled as succeeding; `mmap` of a freshly truncated object yields a
  zero-filled region.
-/

namespace SharedMemory

/-- Model of `MemoryManager::Block` (SharedMemory.h lines 33-45): a block record with
an id (`-1` marks a vacancy), a buffer offset and a size in bytes. -/
structure Block where
  id : Int
  offset : Nat
  size : Nat
deriving DecidableEq

/-- State of `MemoryManager` (SharedMemory.h lines 29-309).  `mem` models the
bytes behind `_addr`; the remaining fields are `_in_use`, `_is_init`,
`_last_index`, `_size` and `_vacant`. -/
structure MemoryManager where
  mem : List Nat
  in_use : List Block
  is_init : Bool
  last_index : Int
  size : Nat
  vacant : List Block
deriving DecidableEq

/-- The freshly constructed manager (constructor, lines 52-56). -/
def MemoryManager.mk0 : MemoryManager :=
  ⟨[], [], false, 0, 0, []⟩

/-- Model of `std::memcpy(mem + dst, buf, n)`: bytes `[dst, dst + n)` of `mem` are
replaced by `buf[0..n)`; everything else is unchanged. -/
def memcpyTo (mem : List Nat) (dst : Nat) (buf : List Nat) (n : Nat) : List Nat :=
  (List.range mem.length).map
    (fun i => if dst ≤ i ∧ i < dst + n then buf.getD (i - dst) 0 else mem.getD i 0)

/-- Model of `std::memcpy(buf, mem + src, n)`: the first `n` bytes of the caller
buffer `buf` are replaced by `mem[src..src+n)`. -/
def memcpyFrom (mem : List Nat) (src : Nat) (buf : List Nat) (n : Nat) : List Nat :=
  (List.range buf.length).map
    (fun i => if i < n then mem.getD (src + i) 0 else buf.getD i 0)

/-- Model of `std::memcpy(mem + dst, mem + src, n)` inside one buffer (used by
`defrag`), with snapshot semantics: sources are read from the old list. -/
def memcpyWithin (mem : List Nat) (dst src n : Nat) : List Nat :=
  (List.range mem.length).map
    (fun i => if dst ≤ i ∧ i < dst + n then mem.getD (src + (i - dst)) 0 else mem.getD i 0)

/-- Model of `MemoryManager::lookup` (lines 287-299): walks `_in_use` and stops at the
first block whose id matches.  The model also returns the context around the
first match, which `free` (lines 118-130) erases. -/
def lookupSplit (id : Int) : List Block → Option (List Block × Block × List Block)
  | [] => none
  | b :: rest =>
    if b.id = id then some ([], b, rest)
    else
      match lookupSplit id rest with
      | some (pre, hit, post) => some (b :: pre, hit, post)
      | none => none

/-- The block returned by `MemoryManager::lookup` for `id`, if any. -/
def MemoryManager.lookup (st : MemoryManager) (id : Int) : Option Block :=
  (lookupSplit id st.in_use).map (fun t => t.2.1)

/-- The first-pass scan of `MemoryManager::allocate` (lines 86-91): the first
vacancy with `size ≥` the request, together with the vacancies before and
after it. -/
def findFirstFit (size : Nat) : List Block → Option (List Block × Block × List Block)
  | [] => none
  | b :: rest =>
    if size ≤ b.size then some ([], b, rest)
    else
      match findFirstFit size rest with
      | some (pre, hit, post) => some (b :: pre, hit, post)
      | none => none

/-- Model of `MemoryManager::_allocate` (lines 223-245), at the vacancy `hit` with
context `pre`/`post` inside `_vacant`: push an in-use block of exactly `size`
bytes carved from the low end of `hit`, erase the vacancy when the remainder
is zero, otherwise shrink it from the low end; return `_last_index++`. -/
def MemoryManager.allocHit (st : MemoryManager) (pre : List Block) (hit : Block)
    (post : List Block) (size : Nat) : Int × MemoryManager :=
  let rem := hit.size - size
  let in_use2 := st.in_use ++ [⟨st.last_index, hit.offset, size⟩]
  let vacant2 :=
    if rem = 0 then pre ++ post
    else pre ++ ⟨hit.id, hit.offset + size, rem⟩ :: post
  (st.last_index,
   { st with in_use := in_use2, vacant := vacant2, last_index := st.last_index + 1 })

/-- The loop of `MemoryManager::defrag` (lines 258-270): walk `_in_use` in
iteration order, copy the bytes of each block to the advancing cursor unless it is
already there, rewrite its offset to the cursor, advance the cursor by its
size.  Returns the new bytes, the rewritten blocks and the final cursor. -/
def defragLoop : List Nat → List Block → Nat → List Nat × List Block × Nat
  | mem, [], offset => (mem, [], offset)
  | mem, b :: rest, offset =>
    let mem2 := if offset ≠ b.offset then memcpyWithin mem offset b.offset b.size else mem
    let r := defragLoop mem2 rest (offset + b.size)
    (r.1, ⟨b.id, offset, b.size⟩ :: r.2.1, r.2.2)

/-- Model of `MemoryManager::defrag` (lines 256-275): run the compaction loop, then
replace `_vacant` by the single block `[cursor, _size)`. -/
def MemoryManager.defrag (st : MemoryManager) : MemoryManager :=
  let r := defragLoop st.mem st.in_use 0
  { st with mem := r.1, in_use := r.2.1, vacant := [⟨-1, r.2.2, st.size - r.2.2⟩] }

/-- Model of `MemoryManager::allocate` (lines 74-108): guard on `_is_init`, on
`size > _size`, on `size == 0` and on an empty `_vacant`; first-fit scan; on
scan failure defrag once and retry against the front of the (now singleton)
vacancy list; `-1` on failure. -/
def MemoryManager.allocate (st : MemoryManager) (size : Nat) : Int × MemoryManager :=
  if ¬ st.is_init then (-1, st)
  else if st.size < size then (-1, st)
  else if size = 0 ∨ st.vacant = [] then (-1, st)
  else
    match findFirstFit size st.vacant with
    | some (pre, hit, post) => st.allocHit pre hit post size
    | none =>
      let st2 := st.defrag
      match st2.vacant with
      | hit :: post => if size ≤ hit.size then st2.allocHit [] hit post size else (-1, st2)
      | [] => (-1, st2)

/-- Model of `MemoryManager::free` (lines 118-130): guard on `_is_init`; look up the
first in-use block with this id; push an equivalent vacancy (sentinel id) to
the back of `_vacant` and erase the block from `_in_use`. -/
def MemoryManager.free (st : MemoryManager) (id : Int) : Bool × MemoryManager :=
  if ¬ st.is_init then (false, st)
  else
    match lookupSplit id st.in_use with
    | none => (false, st)
    | some (pre, hit, post) =>
      (true, { st with vacant := st.vacant ++ [⟨-1, hit.offset, hit.size⟩],
                       in_use := pre ++ post })

/-- Model of `MemoryManager::init` (lines 141-153): one-time setup; fails if already
initialized, if the buffer is null (`none`) or if `size == 0`; otherwise
records the buffer and capacity and seeds `_vacant` with one block spanning
the whole capacity. -/
def MemoryManager.init (st : MemoryManager) (addr : Option (List Nat)) (size : Nat) :
    Bool × MemoryManager :=
  if st.is_init then (false, st)
  else
    match addr with
    | none => (false, st)
    | some a =>
      if size = 0 then (false, st)
      else (true, { st with mem := a, size := size,
                            vacant := st.vacant ++ [⟨-1, 0, size⟩], is_init := true })

/-- Model of `MemoryManager::read` (lines 165-181): guard on `_is_init`, on lookup
failure and on `nbytes` exceeding the size of the block; on success copy exactly
`nbytes` bytes from the offset of the block into the caller buffer. -/
def MemoryManager.read (st : MemoryManager) (id : Int) (buf : List Nat) (nbytes : Nat) :
    Bool × List Nat :=
  if ¬ st.is_init then (false, buf)
  else
    match st.lookup id with
    | none => (false, buf)
    | some b =>
      if b.size < nbytes then (false, buf)
      else (true, memcpyFrom st.mem b.offset buf nbytes)

/-- Model of `MemoryManager::write` (lines 193-210): same guards as `read`; on success
copy exactly `nbytes` bytes from the caller buffer to the offset of the block.
(The C++ method is `const`: it changes bytes behind `_addr`, never the block
lists; the model accordingly only updates `mem`.) -/
def MemoryManager.write (st : MemoryManager) (id : Int) (buf : List Nat) (nbytes : Nat) :
    Bool × MemoryManager :=
  if ¬ st.is_init then (false, st)
  else
    match st.lookup id with
    | none => (false, st)
    | some b =>
      if b.size < nbytes then (false, st)
      else (true, { st with mem := memcpyTo st.mem b.offset buf nbytes })

/-- One call against the allocator, for reachability statements. -/
inductive PoolOp where
  | initOp (addr : Option (List Nat)) (size : Nat)
  | alloc (size : Nat)
  | free (id : Int)
  | defragOp
  | readOp (id : Int) (buf : List Nat) (n : Nat)
  | writeOp (id : Int) (buf : List Nat) (n : Nat)

/-- The state after one allocator call (`read` is `const` and does not touch
the state). -/
def MemoryManager.step (st : MemoryManager) : PoolOp → MemoryManager
  | .initOp a s => (st.init a s).2
  | .alloc s => (st.allocate s).2
  | .free i => (st.free i).2
  | .defragOp => st.defrag
  | .readOp _ _ _ => st
  | .writeOp i b n => (st.write i b n).2

/-- The state after a sequence of allocator calls. -/
def MemoryManager.run (st : MemoryManager) (ops : List PoolOp) : MemoryManager :=
  ops.foldl MemoryManager.step st

/-! ### The partition invariant (claim C1) -/

/-- Block `b` covers byte `x`. -/
def Block.covers (b : Block) (x : Nat) : Prop :=
  b.offset ≤ x ∧ x < b.offset + b.size

/-- Two blocks occupy disjoint byte ranges. -/
def blocksDisjoint (a b : Block) : Prop :=
  a.offset + a.size ≤ b.offset ∨ b.offset + b.size ≤ a.offset

/-- Sum of the sizes of a list of blocks. -/
def sumSizes (bs : List Block) : Nat := (bs.map Block.size).sum

/-- Predicate: `bs` partitions the byte range `[0, C)`: exactly the bytes below `C` are
covered, the blocks are pairwise disjoint (no overlaps, and the coverage
condition rules out gaps), and the sizes sum to `C`. -/
def tiles (bs : List Block) (C : Nat) : Prop :=
  (∀ x, x < C ↔ ∃ b ∈ bs, b.covers x) ∧
  List.Pairwise blocksDisjoint bs ∧ sumSizes bs = C

/-- The combined `_in_use ++ _vacant` block list of a manager state. -/
def MemoryManager.blocks (st : MemoryManager) : List Block :=
  st.in_use ++ st.vacant

/-- The reachable-state invariant: the manager is initialized and its
combined blocks tile `[0, _size)`. -/
def MemoryManager.Inv (st : MemoryManager) : Prop :=
  st.is_init = true ∧ tiles st.blocks st.size

/-! ### The spec-side allocate algorithm (claim C3) -/

/-- The allocate algorithm exactly as claim C3 words it (spec §4.1):
first-fit scan of the vacant list in list order, the first fitting vacancy
is split by the carve operation; if no vacancy in the scan matches,
defragmentation is run exactly once and the request is retried against the
resulting vacancy list, failing with the sentinel `-1` if it is still too
small, with no second defrag attempt.  (The claim guards — initialized,
`0 < size ≤ capacity` — are hypotheses of the comparison theorem.) -/
def MemoryManager.allocateSpec (st : MemoryManager) (size : Nat) : Int × MemoryManager :=
  match findFirstFit size st.vacant with
  | some (pre, hit, post) => st.allocHit pre hit post size
  | none =>
    let st2 := st.defrag
    match findFirstFit size st2.vacant with
    | some (pre, hit, post) => st2.allocHit pre hit post size
    | none => (-1, st2)

/-! ### Segment owner and client (SharedMemory.h lines 311-798) -/

/-- Model of `access_t` (lines 315-321): permissions granted to external processes. -/
inductive access_t where
  | none
  | read_only
  | read_write
deriving DecidableEq

/-- Both `RemoteMemory::init` (lines 499-521) and `MemoryClient::attach`
(lines 634-638) prefix a leading slash when the given name lacks one, as
`shm_open` requires. -/
def normalizeName (name : String) : String :=
  if name.toList.head? = some '/' then name else "/" ++ name

/-- Model of `MemoryClient::Server` (lines 547-573): one record per attached region.
The mapped bytes live in `manager.mem` (the C++ `addr` pointer and the
manager `_addr` alias the same mapping). -/
structure Server where
  access : access_t
  fd : Int
  id : Int
  manager : MemoryManager
  mem_id : Int
  name : String
  size : Nat
deriving DecidableEq

/-- State of `MemoryClient` (lines 545-798): `_last_id` and `_servers`. -/
structure MemoryClient where
  last_id : Int
  servers : List Server
deriving DecidableEq

/-- The freshly constructed client (constructor, line 580). -/
def MemoryClient.mk0 : MemoryClient := ⟨0, []⟩

/-- Model of `MemoryClient::lookup` (lines 780-792): first server whose id matches,
with its context in `_servers`. -/
def lookupServerSplit (id : Int) : List Server → Option (List Server × Server × List Server)
  | [] => none
  | s :: rest =>
    if s.id = id then some ([], s, rest)
    else
      match lookupServerSplit id rest with
      | some (pre, hit, post) => some (s :: pre, hit, post)
      | none => none

/-- Model of `MemoryClient::attach` (lines 607-675): fail on an empty name; normalize
the name; fail if a record with the same normalized name is already held;
open and map the region (OS calls modelled as succeeding, `region` being the
mapped bytes); initialize a fresh manager over the mapping; perform the one
full-region allocation; store the record and hand out `_last_id++`.
The out-parameter `id` is `none` on failure (the C++ leaves it unassigned). -/
def MemoryClient.attach (st : MemoryClient) (name : String) (access : access_t)
    (size : Nat) (region : List Nat) : Bool × Option Int × MemoryClient :=
  if name.length = 0 then (false, (none : Option Int), st)
  else
    let real_name := normalizeName name
    if st.servers.any (fun s => s.name = real_name) then (false, (none : Option Int), st)
    else
      let r1 := MemoryManager.mk0.init (some region) size
      if ¬ r1.1 then (false, (none : Option Int), st)
      else
        let r2 := r1.2.allocate size
        if r2.1 < 0 then (false, (none : Option Int), st)
        else
          (true, some st.last_id,
           ⟨st.last_id + 1,
            st.servers ++ [⟨access, 0, st.last_id, r2.2, r2.1, real_name, size⟩]⟩)

/-- Model of `MemoryClient::write` (lines 734-765): look the record up, fail unless
its access is `read_write`, then lock, delegate to the manager of the record,
unlock and flush (OS calls modelled as succeeding). -/
def MemoryClient.write (st : MemoryClient) (id : Int) (buf : List Nat) (n : Nat) :
    Bool × MemoryClient :=
  match lookupServerSplit id st.servers with
  | Option.none => (false, st)
  | Option.some (pre, s, post) =>
    if s.access ≠ access_t.read_write then (false, st)
    else
      let r := s.manager.write s.mem_id buf n
      if r.1 then (true, ⟨st.last_id, pre ++ { s with manager := r.2 } :: post⟩)
      else (false, st)

/-- State of `RemoteMemory` (lines 334-532).  The mapped bytes live in
`manager.mem` (the C++ `_addr` and the manager `_addr` alias the same
mapping). -/
structure RemoteMemory where
  access : access_t
  fd : Int
  is_init : Bool
  manager : MemoryManager
  mem_id : Int
  name : String
  size : Nat
deriving DecidableEq

/-- The freshly constructed owner (constructor, lines 342-352). -/
def RemoteMemory.mk0 : RemoteMemory :=
  ⟨access_t.none, -1, false, MemoryManager.mk0, -1, "", 0⟩

/-- Model of `RemoteMemory::init` (lines 499-521): fail if already created or the
name is empty; record access, name (normalized) and size. -/
def RemoteMemory.initFields (st : RemoteMemory) (access : access_t) (name : String)
    (size : Nat) : Bool × RemoteMemory :=
  if st.is_init then (false, st)
  else if name.length = 0 then (false, st)
  else (true, { st with access := access, fd := -1, name := normalizeName name, size := size })

/-- Model of `RemoteMemory::create` (lines 375-414): run `init`; `shm_open`,
`ftruncate` and `mmap` (OS calls modelled as succeeding, the fresh mapping
being zero-filled); initialize the member manager over the mapping; perform
the one full-region allocation; mark created. -/
def RemoteMemory.create (st : RemoteMemory) (name : String) (access : access_t)
    (size : Nat) : Bool × RemoteMemory :=
  let r0 := st.initFields access name size
  if ¬ r0.1 then (false, r0.2)
  else
    let st1 : RemoteMemory := { r0.2 with fd := 0 }
    let r1 := st1.manager.init (some (List.replicate st1.size 0)) st1.size
    if ¬ r1.1 then (false, { st1 with manager := r1.2 })
    else
      let st2 : RemoteMemory := { st1 with manager := r1.2 }
      let r2 := st2.manager.allocate st2.size
      let st3 : RemoteMemory := { st2 with manager := r2.2, mem_id := r2.1 }
      if r2.1 = -1 then (false, st3)
      else (true, { st3 with is_init := true })

/-- Model of `RemoteMemory::destroy` (lines 422-436): fail if not created; unmap,
unlink and close (OS calls modelled as succeeding); clear the created flag.
Note: the member manager is NOT reset. -/
def RemoteMemory.destroy (st : RemoteMemory) : Bool × RemoteMemory :=
  if ¬ st.is_init then (false, st)
  else (true, { st with is_init := false })

/-- Model of `RemoteMemory::read` (lines 447-454): guard on the created flag, then
delegate to the manager with the stored mem-id. -/
def RemoteMemory.read (st : RemoteMemory) (buf : List Nat) (size : Nat) :
    Bool × List Nat :=
  if ¬ st.is_init then (false, buf)
  else st.manager.read st.mem_id buf size

/-- Model of `RemoteMemory::write` (lines 465-492): guard on the created flag; lock,
delegate to the manager with the stored mem-id, unlock and flush (OS calls
modelled as succeeding).  No access-policy check is performed. -/
def RemoteMemory.write (st : RemoteMemory) (buf : List Nat) (size : Nat) :
    Bool × RemoteMemory :=
  if ¬ st.is_init then (false, st)
  else
    let r := st.manager.write st.mem_id buf size
    if r.1 then (true, { st with manager := r.2 })
    else (false, { st with manager := r.2 })

/-- One call against a `RemoteMemory` object, for lifetime statements. -/
inductive OwnerOp where
  | createOp (name : String) (access : access_t) (size : Nat)
  | destroyOp
  | readOp (buf : List Nat) (size : Nat)
  | writeOp (buf : List Nat) (size : Nat)

/-- The owner state after one call (`read` does not touch the state). -/
def RemoteMemory.step (st : RemoteMemory) : OwnerOp → RemoteMemory
  | .createOp n a s => (st.create n a s).2
  | .destroyOp => st.destroy.2
  | .readOp _ _ => st
  | .writeOp b s => (st.write b s).2

/-- The owner state after a sequence of calls. -/
def RemoteMemory.run (st : RemoteMemory) (ops : List OwnerOp) : RemoteMemory :=
  ops.foldl RemoteMemory.step st

/-! ### Concrete states used by counterexamples and witnesses -/

/-- A reachable allocator state with an empty vacancy list and scattered
in-use blocks: capacity 10; allocate 5, allocate 5, free the first block,
allocate 5 again (the freed low half is refilled by the first-fit scan). -/
def c3state : MemoryManager :=
  MemoryManager.run (MemoryManager.mk0.init (some [0, 0, 0, 0, 0, 0, 0, 0, 0, 0]) 10).2
    [PoolOp.alloc 5, PoolOp.alloc 5, PoolOp.free 0, PoolOp.alloc 5]

/-- An initialized allocator holding one 2-byte block with bytes `[3, 4]`. -/
def c7state : MemoryManager := ⟨[3, 4], [⟨0, 0, 2⟩], true, 1, 2, []⟩

/-- A client holding one record attached with `read_only` access. -/
def c2client : MemoryClient :=
  ⟨1, [⟨access_t.read_only, 0, 0, ⟨[5, 5], [⟨0, 0, 2⟩], true, 1, 2, []⟩, 0, "/x", 2⟩]⟩

/-- The owner state after creating a `read_only` region of 4 bytes. -/
def c2owner : RemoteMemory := (RemoteMemory.mk0.create "x" access_t.read_only 4).2

lemma blocksDisjoint_symm {a b : Block} (h : blocksDisjoint a b) : blocksDisjoint b a :=
  h.symm

lemma sumSizes_nil : sumSizes [] = 0 := rfl

lemma sumSizes_cons (b : Block) (l : List Block) :
    sumSizes (b :: l) = b.size + sumSizes l := by
  simp [sumSizes]

lemma sumSizes_append (l1 l2 : List Block) :
    sumSizes (l1 ++ l2) = sumSizes l1 + sumSizes l2 := by
  simp [sumSizes]

lemma sumSizes_perm {bs bs' : List Block} (h : List.Perm bs bs') :
    sumSizes bs = sumSizes bs' :=
  (h.map Block.size).sum_eq

lemma tiles_perm {bs bs' : List Block} {C : Nat} (h : List.Perm bs bs')
    (ht : tiles bs C) : tiles bs' C := by
  obtain ⟨hc, hd, hs⟩ := ht
  refine ⟨?_, ?_, ?_⟩
  · intro x
    rw [hc x]
    constructor
    · rintro ⟨b, hb, hcov⟩
      exact ⟨b, h.mem_iff.mp hb, hcov⟩
    · rintro ⟨b, hb, hcov⟩
      exact ⟨b, h.mem_iff.mpr hb, hcov⟩
  · exact (List.Perm.pairwise_iff (fun hxy => blocksDisjoint_symm hxy) h).mp hd
  · rw [← sumSizes_perm h]
    exact hs

/-- Replacing the head block by one with the same offset and size (only the
id differs) preserves the partition property. -/
lemma tiles_replace1 {hit b1 : Block} {L : List Block} {C : Nat}
    (hoff : b1.offset = hit.offset) (hsz : b1.size = hit.size)
    (ht : tiles (hit :: L) C) : tiles (b1 :: L) C := by
  obtain ⟨hc, hd, hs⟩ := ht
  rw [List.pairwise_cons] at hd
  refine ⟨?_, ?_, ?_⟩
  · intro x
    rw [hc x]
    simp only [List.mem_cons]
    constructor
    · rintro ⟨b, hb | hb, hcov⟩
      · subst hb
        exact ⟨b1, Or.inl rfl, by unfold Block.covers at *; omega⟩
      · exact ⟨b, Or.inr hb, hcov⟩
    · rintro ⟨b, hb | hb, hcov⟩
      · subst hb
        exact ⟨hit, Or.inl rfl, by unfold Block.covers at *; omega⟩
      · exact ⟨b, Or.inr hb, hcov⟩
  · rw [List.pairwise_cons]
    refine ⟨fun d hd2 => ?_, hd.2⟩
    have := hd.1 d hd2
    unfold blocksDisjoint at *
    omega
  · rw [sumSizes_cons] at hs ⊢
    omega

/-- Splitting the head block into two adjacent blocks that exactly cover it
preserves the partition property. -/
lemma tiles_replace2 {hit b1 b2 : Block} {L : List Block} {C : Nat}
    (hoff : b1.offset = hit.offset) (hsz : b1.size + b2.size = hit.size)
    (hoff2 : b2.offset = hit.offset + b1.size)
    (ht : tiles (hit :: L) C) : tiles (b1 :: b2 :: L) C := by
  obtain ⟨hc, hd, hs⟩ := ht
  rw [List.pairwise_cons] at hd
  refine ⟨?_, ?_, ?_⟩
  · intro x
    rw [hc x]
    simp only [List.mem_cons]
    constructor
    · rintro ⟨b, hb | hb, hcov⟩
      · subst hb
        unfold Block.covers at hcov
        by_cases hx : x < b1.offset + b1.size
        · exact ⟨b1, Or.inl rfl, by unfold Block.covers; omega⟩
        · exact ⟨b2, Or.inr (Or.inl rfl), by unfold Block.covers; omega⟩
      · exact ⟨b, Or.inr (Or.inr hb), hcov⟩
    · rintro ⟨b, hb | hb | hb, hcov⟩
      · subst hb
        exact ⟨hit, Or.inl rfl, by unfold Block.covers at *; omega⟩
      · subst hb
        exact ⟨hit, Or.inl rfl, by unfold Block.covers at *; omega⟩
      · exact ⟨b, Or.inr hb, hcov⟩
  · rw [List.pairwise_cons, List.pairwise_cons]
    refine ⟨?_, ?_, hd.2⟩
    · intro d hd2
      rw [List.mem_cons] at hd2
      rcases hd2 with hd2 | hd2
      · subst hd2
        unfold blocksDisjoint
        omega
      · have := hd.1 d hd2
        unfold blocksDisjoint at *
        omega
    · intro d hd2
      have := hd.1 d hd2
      unfold blocksDisjoint at *
      omega
  · rw [sumSizes_cons] at hs
    rw [sumSizes_cons, sumSizes_cons]
    omega

/-! Permutations used to bring the surgically modified block lists of
`allocate` and `free` into head-first form. -/

lemma perm_extract_mid (A B D : List Block) (x : Block) :
    List.Perm (A ++ (B ++ x :: D)) (x :: (A ++ B ++ D)) := by
  refine List.perm_iff_count.mpr (fun a => ?_)
  simp only [List.count_append, List.count_cons]
  omega

lemma perm_extract_left (A B D : List Block) (x : Block) :
    List.Perm ((A ++ x :: B) ++ D) (x :: (A ++ B ++ D)) := by
  refine List.perm_iff_count.mpr (fun a => ?_)
  simp only [List.count_append, List.count_cons]
  omega

lemma perm_snoc_mid (A B D : List Block) (y : Block) :
    List.Perm ((A ++ [y]) ++ (B ++ D)) (y :: (A ++ B ++ D)) := by
  refine List.perm_iff_count.mpr (fun a => ?_)
  simp only [List.count_append, List.count_cons, List.count_nil]
  omega

lemma perm_snoc_mid2 (A B D : List Block) (y z : Block) :
    List.Perm ((A ++ [y]) ++ (B ++ z :: D)) (y :: z :: (A ++ B ++ D)) := by
  refine List.perm_iff_count.mpr (fun a => ?_)
  simp only [List.count_append, List.count_cons, List.count_nil]
  omega

lemma perm_erase_snoc (A B D : List Block) (y : Block) :
    List.Perm ((A ++ B) ++ (D ++ [y])) (y :: (A ++ B ++ D)) := by
  refine List.perm_iff_count.mpr (fun a => ?_)
  simp only [List.count_append, List.count_cons, List.count_nil]
  omega

/-- The first-pass scan stops at the first fitting vacancy: the list splits
as `pre ++ hit :: post`, the hit fits, and nothing before it fits. -/
lemma findFirstFit_some {size : Nat} :
    ∀ {l pre post : List Block} {hit : Block},
      findFirstFit size l = some (pre, hit, post) →
      l = pre ++ hit :: post ∧ size ≤ hit.size ∧ ∀ b ∈ pre, b.size < size := by
  intro l
  induction l with
  | nil =>
    intro pre post hit h
    simp [findFirstFit] at h
  | cons b rest ih =>
    intro pre post hit h
    unfold findFirstFit at h
    by_cases hb : size ≤ b.size
    · rw [if_pos hb] at h
      simp only [Option.some.injEq, Prod.mk.injEq] at h
      obtain ⟨h1, h2, h3⟩ := h
      subst h1; subst h2; subst h3
      exact ⟨rfl, hb, by intro c hc; simp at hc⟩
    · rw [if_neg hb] at h
      cases hrec : findFirstFit size rest with
      | none => rw [hrec] at h; simp at h
      | some t =>
        obtain ⟨pre2, hit2, post2⟩ := t
        rw [hrec] at h
        simp only [Option.some.injEq, Prod.mk.injEq] at h
        obtain ⟨h1, h2, h3⟩ := h
        subst h1; subst h2; subst h3
        obtain ⟨hl, hfit, hpre⟩ := ih hrec
        refine ⟨by rw [hl]; rfl, hfit, ?_⟩
        intro c hc
        rw [List.mem_cons] at hc
        rcases hc with hc | hc
        · subst hc; omega
        · exact hpre c hc

/-- A scan that fails finds no fitting vacancy anywhere in the list. -/
lemma findFirstFit_none {size : Nat} :
    ∀ {l : List Block}, findFirstFit size l = none → ∀ b ∈ l, b.size < size := by
  intro l
  induction l with
  | nil => intro _ b hb; simp at hb
  | cons b rest ih =>
    intro h c hc
    unfold findFirstFit at h
    by_cases hb : size ≤ b.size
    · rw [if_pos hb] at h; simp at h
    · rw [if_neg hb] at h
      rw [List.mem_cons] at hc
      cases hrec : findFirstFit size rest with
      | none =>
        rcases hc with hc | hc
        · subst hc; omega
        · exact ih hrec c hc
      | some t => rw [hrec] at h; simp at h

/-- Lemma: `lookup` stops at the first block with the requested id: the list splits
as `pre ++ hit :: post` with `hit.id = id` and no earlier match. -/
lemma lookupSplit_some {id : Int} :
    ∀ {l pre post : List Block} {hit : Block},
      lookupSplit id l = some (pre, hit, post) →
      l = pre ++ hit :: post ∧ hit.id = id ∧ ∀ b ∈ pre, b.id ≠ id := by
  intro l
  induction l with
  | nil =>
    intro pre post hit h
    simp [lookupSplit] at h
  | cons b rest ih =>
    intro pre post hit h
    unfold lookupSplit at h
    by_cases hb : b.id = id
    · rw [if_pos hb] at h
      simp only [Option.some.injEq, Prod.mk.injEq] at h
      obtain ⟨h1, h2, h3⟩ := h
      subst h1; subst h2; subst h3
      exact ⟨rfl, hb, by intro c hc; simp at hc⟩
    · rw [if_neg hb] at h
      cases hrec : lookupSplit id rest with
      | none => rw [hrec] at h; simp at h
      | some t =>
        obtain ⟨pre2, hit2, post2⟩ := t
        rw [hrec] at h
        simp only [Option.some.injEq, Prod.mk.injEq] at h
        obtain ⟨h1, h2, h3⟩ := h
        subst h1; subst h2; subst h3
        obtain ⟨hl, hid, hpre⟩ := ih hrec
        refine ⟨by rw [hl]; rfl, hid, ?_⟩
        intro c hc
        rw [List.mem_cons] at hc
        rcases hc with hc | hc
        · subst hc; exact hb
        · exact hpre c hc

/-- Carving a block out of a fitting vacancy preserves the invariant. -/
lemma allocHit_inv {st : MemoryManager} {pre post : List Block} {hit : Block} {size : Nat}
    (hv : st.vacant = pre ++ hit :: post) (hsz : size ≤ hit.size) (h : st.Inv) :
    (st.allocHit pre hit post size).2.Inv := by
  obtain ⟨hi, ht⟩ := h
  have ht' : tiles (hit :: (st.in_use ++ pre ++ post)) st.size := by
    refine tiles_perm ?_ ht
    unfold MemoryManager.blocks
    rw [hv]
    exact perm_extract_mid _ _ _ _
  unfold MemoryManager.allocHit
  by_cases hrem : hit.size - size = 0
  · simp only [hrem, if_pos rfl]
    refine ⟨hi, ?_⟩
    unfold MemoryManager.blocks
    simp only
    refine tiles_perm (perm_snoc_mid _ _ _ _).symm ?_
    refine tiles_replace1 ?_ ?_ ht'
    · rfl
    · show size = hit.size
      omega
  · simp only [if_neg hrem]
    refine ⟨hi, ?_⟩
    unfold MemoryManager.blocks
    simp only
    refine tiles_perm (perm_snoc_mid2 _ _ _ _ _).symm ?_
    refine tiles_replace2 ?_ ?_ ?_ ht'
    · rfl
    · show size + (hit.size - size) = hit.size
      omega
    · rfl

/-- The final cursor of the defrag loop is the starting cursor plus the total
size of the walked blocks. -/
lemma defragLoop_cursor :
    ∀ (bs : List Block) (mem : List Nat) (c : Nat),
      (defragLoop mem bs c).2.2 = c + sumSizes bs := by
  intro bs
  induction bs with
  | nil => intro mem c; simp [defragLoop, sumSizes]
  | cons b rest ih =>
    intro mem c
    show (defragLoop _ rest (c + b.size)).2.2 = _
    rw [ih, sumSizes_cons]
    omega

/-- Every block written by the defrag loop lies inside
`[c, c + sumSizes bs)`. -/
lemma defragLoop_blocks_le :
    ∀ (bs : List Block) (mem : List Nat) (c : Nat),
      ∀ b2 ∈ (defragLoop mem bs c).2.1,
        c ≤ b2.offset ∧ b2.offset + b2.size ≤ c + sumSizes bs := by
  intro bs
  induction bs with
  | nil => intro mem c b2 hb2; simp [defragLoop] at hb2
  | cons b rest ih =>
    intro mem c b2 hb2
    have hb2' : b2 ∈ ({ id := b.id, offset := c, size := b.size } : Block) ::
        (defragLoop (if c ≠ b.offset then memcpyWithin mem c b.offset b.size else mem)
          rest (c + b.size)).2.1 := hb2
    rw [List.mem_cons] at hb2'
    rw [sumSizes_cons]
    rcases hb2' with hb2' | hb2'
    · subst hb2'
      show c ≤ c ∧ c + b.size ≤ c + (b.size + sumSizes rest)
      omega
    · have := ih _ (c + b.size) b2 hb2'
      omega

/-- The blocks written by the defrag loop are pairwise disjoint. -/
lemma defragLoop_pairwise :
    ∀ (bs : List Block) (mem : List Nat) (c : Nat),
      List.Pairwise blocksDisjoint (defragLoop mem bs c).2.1 := by
  intro bs
  induction bs with
  | nil => intro mem c; simp [defragLoop]
  | cons b rest ih =>
    intro mem c
    show List.Pairwise blocksDisjoint (({ id := b.id, offset := c, size := b.size } : Block) ::
      (defragLoop _ rest (c + b.size)).2.1)
    rw [List.pairwise_cons]
    refine ⟨?_, ih _ _⟩
    intro d hd
    have := defragLoop_blocks_le rest _ (c + b.size) d hd
    unfold blocksDisjoint
    simp only
    omega

/-- The blocks written by the defrag loop cover exactly
`[c, c + sumSizes bs)`. -/
lemma defragLoop_covers :
    ∀ (bs : List Block) (mem : List Nat) (c x : Nat),
      (∃ b2 ∈ (defragLoop mem bs c).2.1, b2.covers x) ↔
        (c ≤ x ∧ x < c + sumSizes bs) := by
  intro bs
  induction bs with
  | nil => intro mem c x; simp [defragLoop, sumSizes]
  | cons b rest ih =>
    intro mem c x
    have hshape : (defragLoop mem (b :: rest) c).2.1 =
        ({ id := b.id, offset := c, size := b.size } : Block) ::
          (defragLoop (if c ≠ b.offset then memcpyWithin mem c b.offset b.size else mem)
            rest (c + b.size)).2.1 := rfl
    rw [hshape, sumSizes_cons]
    simp only [List.mem_cons]
    constructor
    · rintro ⟨b2, hb2 | hb2, hcov⟩
      · subst hb2
        unfold Block.covers at hcov
        simp only at hcov
        omega
      · have := (ih _ (c + b.size) x).mp ⟨b2, hb2, hcov⟩
        omega
    · intro hx
      by_cases hxb : x < c + b.size
      · exact ⟨_, Or.inl rfl, by unfold Block.covers; simp only; omega⟩
      · obtain ⟨b2, hb2, hcov⟩ := (ih (if c ≠ b.offset then memcpyWithin mem c b.offset b.size else mem)
          (c + b.size) x).mpr (by omega)
        exact ⟨b2, Or.inr hb2, hcov⟩

/-- The defrag loop preserves the id sequence of the walked blocks. -/
lemma defragLoop_map_id :
    ∀ (bs : List Block) (mem : List Nat) (c : Nat),
      (defragLoop mem bs c).2.1.map Block.id = bs.map Block.id := by
  intro bs
  induction bs with
  | nil => intro mem c; rfl
  | cons b rest ih =>
    intro mem c
    show Block.id ⟨b.id, c, b.size⟩ :: (defragLoop _ rest (c + b.size)).2.1.map Block.id = _
    rw [ih]
    rfl

/-- The defrag loop preserves the size sequence of the walked blocks. -/
lemma defragLoop_map_size :
    ∀ (bs : List Block) (mem : List Nat) (c : Nat),
      (defragLoop mem bs c).2.1.map Block.size = bs.map Block.size := by
  intro bs
  induction bs with
  | nil => intro mem c; rfl
  | cons b rest ih =>
    intro mem c
    show Block.size ⟨b.id, c, b.size⟩ :: (defragLoop _ rest (c + b.size)).2.1.map Block.size = _
    rw [ih]
    rfl

/-- The defrag loop rewrites the offset of the `i`-th block to the cursor value
there: the starting cursor plus the sizes of the blocks before it. -/
lemma defragLoop_offset :
    ∀ (bs : List Block) (mem : List Nat) (c : Nat) (i : Nat)
      (h : i < (defragLoop mem bs c).2.1.length),
      ((defragLoop mem bs c).2.1.get ⟨i, h⟩).offset = c + sumSizes (bs.take i) := by
  intro bs
  induction bs with
  | nil =>
    intro mem c i h
    simp [defragLoop] at h
  | cons b rest ih =>
    intro mem c i h
    match i with
    | 0 => rfl
    | i + 1 =>
      have h' : i < (defragLoop (if c ≠ b.offset then memcpyWithin mem c b.offset b.size else mem)
          rest (c + b.size)).2.1.length := by
        have : (defragLoop mem (b :: rest) c).2.1.length =
            (defragLoop (if c ≠ b.offset then memcpyWithin mem c b.offset b.size else mem)
              rest (c + b.size)).2.1.length + 1 := rfl
        omega
      have := ih _ (c + b.size) i h'
      show ((defragLoop _ rest (c + b.size)).2.1.get ⟨i, h'⟩).offset = _
      rw [this, List.take_succ_cons, sumSizes_cons]
      omega

/-- Lemma: `defrag` preserves the invariant: the compacted in-use blocks tile
`[0, Σ sizes)` and the single new vacancy tiles the rest. -/
lemma defrag_inv {st : MemoryManager} (h : st.Inv) : st.defrag.Inv := by
  obtain ⟨hi, hc, hd, hs⟩ := h
  have hS : sumSizes st.in_use ≤ st.size := by
    unfold MemoryManager.blocks at hs
    rw [sumSizes_append] at hs
    omega
  have hcur : (defragLoop st.mem st.in_use 0).2.2 = sumSizes st.in_use := by
    rw [defragLoop_cursor]
    omega
  have hsum : sumSizes (defragLoop st.mem st.in_use 0).2.1 = sumSizes st.in_use := by
    unfold sumSizes
    rw [defragLoop_map_size]
  refine ⟨hi, ?_, ?_, ?_⟩
  · intro x
    unfold MemoryManager.defrag MemoryManager.blocks
    simp only [List.mem_append, List.mem_cons, List.mem_singleton]
    constructor
    · intro hx
      by_cases hxS : x < sumSizes st.in_use
      · obtain ⟨b2, hb2, hcov⟩ := (defragLoop_covers st.in_use st.mem 0 x).mpr (by omega)
        exact ⟨b2, Or.inl hb2, hcov⟩
      · refine ⟨⟨-1, (defragLoop st.mem st.in_use 0).2.2, st.size - (defragLoop st.mem st.in_use 0).2.2⟩,
          Or.inr (Or.inl rfl), ?_⟩
        unfold Block.covers
        simp only
        rw [hcur]
        omega
    · rintro ⟨b2, hb2 | hb2 | hb2, hcov⟩
      · have := (defragLoop_covers st.in_use st.mem 0 x).mp ⟨b2, hb2, hcov⟩
        omega
      · subst hb2
        unfold Block.covers at hcov
        simp only at hcov
        rw [hcur] at hcov
        omega
      · simp at hb2
  · unfold MemoryManager.defrag MemoryManager.blocks
    simp only
    rw [List.pairwise_append]
    refine ⟨defragLoop_pairwise _ _ _, List.pairwise_singleton _ _, ?_⟩
    intro b2 hb2 d hd2
    rw [List.mem_singleton] at hd2
    subst hd2
    have := defragLoop_blocks_le st.in_use st.mem 0 b2 hb2
    unfold blocksDisjoint
    simp only
    rw [hcur]
    omega
  · unfold MemoryManager.defrag MemoryManager.blocks
    simp only
    rw [sumSizes_append, hsum, sumSizes_cons, sumSizes_nil]
    simp only
    rw [hcur]
    omega

/-- The single-vacancy shape of the state right after `defrag`. -/
lemma defrag_vacant (st : MemoryManager) :
    st.defrag.vacant = [⟨-1, (defragLoop st.mem st.in_use 0).2.2,
      st.size - (defragLoop st.mem st.in_use 0).2.2⟩] := rfl

/-- Lemma: `write` only changes bytes: block lists, capacity, init flag and the id
counter are untouched. -/
lemma write_preserves (st : MemoryManager) (id : Int) (buf : List Nat) (n : Nat) :
    (st.write id buf n).2.in_use = st.in_use ∧
    (st.write id buf n).2.vacant = st.vacant ∧
    (st.write id buf n).2.size = st.size ∧
    (st.write id buf n).2.is_init = st.is_init ∧
    (st.write id buf n).2.last_index = st.last_index := by
  unfold MemoryManager.write
  split
  · exact ⟨rfl, rfl, rfl, rfl, rfl⟩
  · split
    · exact ⟨rfl, rfl, rfl, rfl, rfl⟩
    · split
      · exact ⟨rfl, rfl, rfl, rfl, rfl⟩
      · exact ⟨rfl, rfl, rfl, rfl, rfl⟩

/-- Lemma: `allocate` preserves the invariant. -/
lemma allocate_inv {st : MemoryManager} (h : st.Inv) (s : Nat) : (st.allocate s).2.Inv := by
  unfold MemoryManager.allocate
  have h1 : ¬ ¬ st.is_init = true := by rw [h.1]; simp
  rw [if_neg h1]
  by_cases h2 : st.size < s
  · rw [if_pos h2]
    exact h
  · rw [if_neg h2]
    by_cases h3 : s = 0 ∨ st.vacant = []
    · rw [if_pos h3]
      exact h
    · rw [if_neg h3]
      cases hff : findFirstFit s st.vacant with
      | some t =>
        obtain ⟨pre, hit, post⟩ := t
        simp only [hff]
        exact allocHit_inv (findFirstFit_some hff).1 (findFirstFit_some hff).2.1 h
      | none =>
        simp only [hff]
        have hd := defrag_inv h
        show ((match st.defrag.vacant with
          | hit :: post =>
            if s ≤ hit.size then st.defrag.allocHit [] hit post s else (-1, st.defrag)
          | [] => (-1, st.defrag)).2).Inv
        rw [defrag_vacant]
        by_cases h4 : s ≤ (st.size - (defragLoop st.mem st.in_use 0).2.2)
        · simp only
          rw [if_pos h4]
          exact allocHit_inv (defrag_vacant st) h4 hd
        · simp only
          rw [if_neg h4]
          exact hd

/-- Lemma: `free` preserves the invariant: the freed block becomes an identically
placed vacancy. -/
lemma free_inv {st : MemoryManager} (h : st.Inv) (id : Int) : (st.free id).2.Inv := by
  unfold MemoryManager.free
  have h1 : ¬ ¬ st.is_init = true := by rw [h.1]; simp
  rw [if_neg h1]
  cases hls : lookupSplit id st.in_use with
  | none =>
    simp only [hls]
    exact h
  | some t =>
    obtain ⟨pre, hit, post⟩ := t
    simp only [hls]
    obtain ⟨hi, ht⟩ := h
    refine ⟨hi, ?_⟩
    have hiu := (lookupSplit_some hls).1
    have hold : tiles (hit :: (pre ++ post ++ st.vacant)) st.size := by
      refine tiles_perm ?_ ht
      unfold MemoryManager.blocks
      rw [hiu]
      exact perm_extract_left _ _ _ _
    unfold MemoryManager.blocks
    simp only
    refine tiles_perm (perm_erase_snoc _ _ _ _).symm ?_
    refine tiles_replace1 ?_ ?_ hold
    · rfl
    · rfl

/-- Lemma: `write` preserves the invariant (it only changes bytes). -/
lemma write_inv {st : MemoryManager} (h : st.Inv) (id : Int) (buf : List Nat) (n : Nat) :
    (st.write id buf n).2.Inv := by
  obtain ⟨w1, w2, w3, w4, w5⟩ := write_preserves st id buf n
  unfold MemoryManager.Inv MemoryManager.blocks at h ⊢
  rw [w1, w2, w3, w4]
  exact h

/-- Every allocator call preserves the invariant. -/
lemma step_inv {st : MemoryManager} (h : st.Inv) (op : PoolOp) : (st.step op).Inv := by
  cases op with
  | initOp a s =>
    show ((st.init a s).2).Inv
    unfold MemoryManager.init
    rw [if_pos h.1]
    exact h
  | alloc s => exact allocate_inv h s
  | free i => exact free_inv h i
  | defragOp => exact defrag_inv h
  | readOp i b n => exact h
  | writeOp i b n => exact write_inv h i b n

/-- Lemma: `allocate` never changes the capacity. -/
lemma allocate_size (st : MemoryManager) (s : Nat) : (st.allocate s).2.size = st.size := by
  unfold MemoryManager.allocate
  split
  · rfl
  · split
    · rfl
    · split
      · rfl
      · split
        · rfl
        · show ((match st.defrag.vacant with
            | hit :: post =>
              if s ≤ hit.size then st.defrag.allocHit [] hit post s else (-1, st.defrag)
            | [] => (-1, st.defrag)).2).size = st.size
          rw [defrag_vacant]
          simp only
          split
          · rfl
          · rfl

/-- Lemma: `free` never changes the capacity. -/
lemma free_size (st : MemoryManager) (id : Int) : (st.free id).2.size = st.size := by
  unfold MemoryManager.free
  split
  · rfl
  · split
    · rfl
    · rfl

/-- On an initialized state, every allocator call leaves the capacity as
it is. -/
lemma step_size {st : MemoryManager} (h : st.Inv) (op : PoolOp) :
    (st.step op).size = st.size := by
  cases op with
  | initOp a s =>
    show ((st.init a s).2).size = st.size
    unfold MemoryManager.init
    rw [if_pos h.1]
  | alloc s => exact allocate_size st s
  | free i => exact free_size st i
  | defragOp => rfl
  | readOp i b n => rfl
  | writeOp i b n => exact (write_preserves st i b n).2.2.1

/-- Sequences of allocator calls preserve the invariant and the capacity. -/
lemma run_inv {st : MemoryManager} (h : st.Inv) (ops : List PoolOp) :
    (st.run ops).Inv ∧ (st.run ops).size = st.size := by
  induction ops generalizing st with
  | nil => exact ⟨h, rfl⟩
  | cons op rest ih =>
    have h1 := step_inv h op
    have h2 := step_size h op
    have h3 := ih h1
    refine ⟨h3.1, ?_⟩
    show ((st.step op).run rest).size = st.size
    rw [h3.2, h2]

/-- The state right after a successful `init` on a fresh manager. -/
lemma init_mk0 (a : List Nat) (C : Nat) (hC : 0 < C) :
    MemoryManager.mk0.init (some a) C = (true, ⟨a, [], true, 0, C, [⟨-1, 0, C⟩]⟩) := by
  unfold MemoryManager.init MemoryManager.mk0
  rw [if_neg (by simp)]
  simp only
  rw [if_neg (by omega)]
  rfl

/-- The freshly initialized state satisfies the invariant. -/
lemma fresh_inv (a : List Nat) (C : Nat) :
    (⟨a, [], true, 0, C, [⟨-1, 0, C⟩]⟩ : MemoryManager).Inv := by
  refine ⟨rfl, ?_, ?_, ?_⟩
  · intro x
    show x < C ↔ _
    constructor
    · intro hx
      refine ⟨⟨-1, 0, C⟩, by simp [MemoryManager.blocks], ?_⟩
      show 0 ≤ x ∧ x < 0 + C
      omega
    · rintro ⟨b, hb, hcov⟩
      simp [MemoryManager.blocks] at hb
      subst hb
      have hcov' : 0 ≤ x ∧ x < 0 + C := hcov
      omega
  · simp only [MemoryManager.blocks]
    exact List.pairwise_singleton _ _
  · simp [MemoryManager.blocks, sumSizes]

/-- C1: for every reachable state of the allocator — any sequence of `init`,
`allocate`, `free`, `defrag`, `read`, `write` calls after a successful
`init` with capacity `C` — the blocks in `_in_use ++ _vacant` partition the
byte range `[0, C)` with no overlaps and no gaps, and the sizes of all
in-use blocks plus the sizes of all vacant blocks sum to `C`. -/
theorem c1_partition_invariant (a : List Nat) (C : Nat) (ops : List PoolOp)
    (hC : 0 < C) :
    (MemoryManager.mk0.init (some a) C).1 = true ∧
    tiles ((MemoryManager.run (MemoryManager.mk0.init (some a) C).2 ops).blocks) C := by
  rw [init_mk0 a C hC]
  refine ⟨rfl, ?_⟩
  have hr := run_inv (fresh_inv a C) ops
  have hsz : (MemoryManager.run ⟨a, [], true, 0, C, [⟨-1, 0, C⟩]⟩ ops).size = C := hr.2
  have ht := hr.1.2
  rw [hsz] at ht
  exact ht

/-- Witness for C1 at capacity 2 with an allocate/free/defrag run. -/
theorem c1_partition_invariant_witness :
    0 < 2 ∧
    ((MemoryManager.mk0.init (some [0, 0]) 2).1 = true ∧
      tiles ((MemoryManager.run (MemoryManager.mk0.init (some [0, 0]) 2).2
        [PoolOp.alloc 1, PoolOp.free 0, PoolOp.defragOp]).blocks) 2) :=
  ⟨by decide,
   c1_partition_invariant [0, 0] 2 [PoolOp.alloc 1, PoolOp.free 0, PoolOp.defragOp]
     (by decide)⟩

/-! ### Byte-copy lemmas and the read/write contracts (claims C5, C7) -/

lemma memcpyTo_length (mem buf : List Nat) (dst n : Nat) :
    (memcpyTo mem dst buf n).length = mem.length := by
  simp [memcpyTo]

lemma memcpyFrom_length (mem buf : List Nat) (src n : Nat) :
    (memcpyFrom mem src buf n).length = buf.length := by
  simp [memcpyFrom]

lemma memcpyTo_getD (mem buf : List Nat) (dst n i : Nat) (hi : i < mem.length) :
    (memcpyTo mem dst buf n).getD i 0 =
      if dst ≤ i ∧ i < dst + n then buf.getD (i - dst) 0 else mem.getD i 0 := by
  have hlen : i < (memcpyTo mem dst buf n).length := by
    rw [memcpyTo_length]
    exact hi
  rw [List.getD_eq_getElem _ _ hlen]
  unfold memcpyTo
  rw [List.getElem_map, List.getElem_range]

lemma memcpyFrom_getD (mem buf : List Nat) (src n i : Nat) (hi : i < buf.length) :
    (memcpyFrom mem src buf n).getD i 0 =
      if i < n then mem.getD (src + i) 0 else buf.getD i 0 := by
  have hlen : i < (memcpyFrom mem src buf n).length := by
    rw [memcpyFrom_length]
    exact hi
  rw [List.getD_eq_getElem _ _ hlen]
  unfold memcpyFrom
  rw [List.getElem_map, List.getElem_range]

/-- The successful branch of `MemoryManager::write`. -/
lemma write_success {st : MemoryManager} {id : Int} {b : Block} {buf : List Nat} {n : Nat}
    (hinit : st.is_init = true) (hlk : st.lookup id = some b) (hn : n ≤ b.size) :
    st.write id buf n = (true, { st with mem := memcpyTo st.mem b.offset buf n }) := by
  unfold MemoryManager.write
  rw [if_neg (by rw [hinit]; simp)]
  simp only [hlk]
  rw [if_neg (by omega)]

/-- The successful branch of `MemoryManager::read`. -/
lemma read_success {st : MemoryManager} {id : Int} {b : Block} {buf : List Nat} {n : Nat}
    (hinit : st.is_init = true) (hlk : st.lookup id = some b) (hn : n ≤ b.size) :
    st.read id buf n = (true, memcpyFrom st.mem b.offset buf n) := by
  unfold MemoryManager.read
  rw [if_neg (by rw [hinit]; simp)]
  simp only [hlk]
  rw [if_neg (by omega)]

/-- Two lists agree on their first `n` entries when their `getD` views do. -/
lemma take_eq_of_getD {L1 L2 : List Nat} {n : Nat} (h1 : n ≤ L1.length) (h2 : n ≤ L2.length)
    (h : ∀ i, i < n → L1.getD i 0 = L2.getD i 0) : L1.take n = L2.take n := by
  apply List.ext_getElem
  · rw [List.length_take, List.length_take]
    omega
  · intro i hi1 hi2
    rw [List.getElem_take, List.getElem_take]
    have hi : i < n := by
      rw [List.length_take] at hi1
      omega
    have g1 : i < L1.length := by omega
    have g2 : i < L2.length := by omega
    rw [← List.getD_eq_getElem L1 0 g1, ← List.getD_eq_getElem L2 0 g2]
    exact h i hi

/-- C5: for every id found in `_in_use` (as obtained from a successful
`allocate`), every byte sequence and every length `n` within the recorded size of
the block (and buffers long enough, as the C++ caller contract
requires), a successful `write` followed by a `read` of the same length
succeeds and yields exactly the bytes that were written. -/
theorem c5_write_read_roundtrip (st : MemoryManager) (id : Int) (b : Block)
    (buf buf0 : List Nat) (n : Nat)
    (hinit : st.is_init = true) (hlk : st.lookup id = some b) (hn : n ≤ b.size)
    (hmem : b.offset + n ≤ st.mem.length) (hbuf : n ≤ buf.length)
    (hbuf0 : n ≤ buf0.length) :
    (st.write id buf n).1 = true ∧
    ((st.write id buf n).2.read id buf0 n).1 = true ∧
    ((st.write id buf n).2.read id buf0 n).2.take n = buf.take n := by
  rw [write_success hinit hlk hn]
  have hinit2 : ({ st with mem := memcpyTo st.mem b.offset buf n } :
      MemoryManager).is_init = true := hinit
  have hlk2 : ({ st with mem := memcpyTo st.mem b.offset buf n } :
      MemoryManager).lookup id = some b := hlk
  rw [read_success hinit2 hlk2 hn]
  refine ⟨rfl, rfl, ?_⟩
  apply take_eq_of_getD
  · show n ≤ (memcpyFrom (memcpyTo st.mem b.offset buf n) b.offset buf0 n).length
    rw [memcpyFrom_length]
    exact hbuf0
  · exact hbuf
  · intro i hi
    show (memcpyFrom (memcpyTo st.mem b.offset buf n) b.offset buf0 n).getD i 0 =
      buf.getD i 0
    rw [memcpyFrom_getD _ _ _ _ _ (by omega)]
    rw [if_pos hi]
    rw [memcpyTo_getD _ _ _ _ _ (by omega)]
    rw [if_pos (by omega)]
    congr 1
    omega

/-- Witness for C5 on a 3-byte pool with one block. -/
theorem c5_write_read_roundtrip_witness :
    ((⟨[0, 0, 0], [⟨0, 0, 3⟩], true, 1, 3, []⟩ : MemoryManager).write 0 [8, 9] 2).1 = true ∧
    (((⟨[0, 0, 0], [⟨0, 0, 3⟩], true, 1, 3, []⟩ : MemoryManager).write 0 [8, 9] 2).2.read
      0 [1, 1, 1] 2).1 = true ∧
    (((⟨[0, 0, 0], [⟨0, 0, 3⟩], true, 1, 3, []⟩ : MemoryManager).write 0 [8, 9] 2).2.read
      0 [1, 1, 1] 2).2.take 2 = ([8, 9] : List Nat).take 2 :=
  c5_write_read_roundtrip ⟨[0, 0, 0], [⟨0, 0, 3⟩], true, 1, 3, []⟩ 0 ⟨0, 0, 3⟩
    [8, 9] [1, 1, 1] 2 rfl (by decide) (by decide) (by decide) (by decide) (by decide)

/-- C7: `read`/`write` succeed exactly when the allocator is initialized,
the id is found in `_in_use` and `nbytes` is within the recorded size of
the block; on failure nothing is copied (the caller buffer, respectively the
whole allocator state including the stored bytes, is unchanged); on success
exactly `nbytes` bytes are copied between the caller buffer and the block
offset, with nothing else touched — no partial copies. -/
theorem c7_read_write_failure_semantics (st : MemoryManager) (id : Int)
    (buf : List Nat) (n : Nat) :
    ((st.read id buf n).1 = true ↔
      (st.is_init = true ∧ ∃ b, st.lookup id = some b ∧ n ≤ b.size)) ∧
    ((st.write id buf n).1 = true ↔
      (st.is_init = true ∧ ∃ b, st.lookup id = some b ∧ n ≤ b.size)) ∧
    ((st.read id buf n).1 = false → (st.read id buf n).2 = buf) ∧
    ((st.write id buf n).1 = false → (st.write id buf n).2 = st) ∧
    (∀ b, st.is_init = true → st.lookup id = some b → n ≤ b.size →
      ((st.read id buf n).2.length = buf.length ∧
       (∀ i, i < buf.length →
         (st.read id buf n).2.getD i 0 =
           if i < n then st.mem.getD (b.offset + i) 0 else buf.getD i 0) ∧
       (st.write id buf n).2.mem.length = st.mem.length ∧
       (∀ i, i < st.mem.length →
         (st.write id buf n).2.mem.getD i 0 =
           if b.offset ≤ i ∧ i < b.offset + n then buf.getD (i - b.offset) 0
           else st.mem.getD i 0) ∧
       (st.write id buf n).2.in_use = st.in_use ∧
       (st.write id buf n).2.vacant = st.vacant)) := by
  by_cases h1 : st.is_init = true
  · cases hlk : st.lookup id with
    | none =>
      have hr : st.read id buf n = (false, buf) := by
        unfold MemoryManager.read
        rw [if_neg (by rw [h1]; simp)]
        simp only [hlk]
      have hw : st.write id buf n = (false, st) := by
        unfold MemoryManager.write
        rw [if_neg (by rw [h1]; simp)]
        simp only [hlk]
      refine ⟨?_, ?_, ?_, ?_, ?_⟩
      · rw [hr]
        simp [hlk]
      · rw [hw]
        simp [hlk]
      · intro _
        rw [hr]
      · intro _
        rw [hw]
      · intro b _ hlk2 _
        exact absurd hlk2 (by simp)
    | some b =>
      by_cases h3 : b.size < n
      · have hr : st.read id buf n = (false, buf) := by
          unfold MemoryManager.read
          rw [if_neg (by rw [h1]; simp)]
          simp only [hlk]
          rw [if_pos h3]
        have hw : st.write id buf n = (false, st) := by
          unfold MemoryManager.write
          rw [if_neg (by rw [h1]; simp)]
          simp only [hlk]
          rw [if_pos h3]
        refine ⟨?_, ?_, ?_, ?_, ?_⟩
        · rw [hr]
          constructor
          · intro hc
            cases hc
          · rintro ⟨-, b2, hb2, hnb⟩
            have heq := Option.some.inj hb2
            subst heq
            omega
        · rw [hw]
          constructor
          · intro hc
            cases hc
          · rintro ⟨-, b2, hb2, hnb⟩
            have heq := Option.some.inj hb2
            subst heq
            omega
        · intro _
          rw [hr]
        · intro _
          rw [hw]
        · intro b2 _ hlk2 hn2
          have heq := Option.some.inj hlk2
          subst heq
          omega
      · have hn : n ≤ b.size := by omega
        refine ⟨?_, ?_, ?_, ?_, ?_⟩
        · rw [read_success h1 hlk hn]
          exact ⟨fun _ => ⟨h1, b, rfl, hn⟩, fun _ => rfl⟩
        · rw [write_success h1 hlk hn]
          exact ⟨fun _ => ⟨h1, b, rfl, hn⟩, fun _ => rfl⟩
        · rw [read_success h1 hlk hn]
          intro hc
          cases hc
        · rw [write_success h1 hlk hn]
          intro hc
          cases hc
        · intro b2 _ hlk2 hn2
          have heq := Option.some.inj hlk2
          subst heq
          rw [read_success h1 hlk hn, write_success h1 hlk hn]
          refine ⟨?_, ?_, ?_, ?_, rfl, rfl⟩
          · exact memcpyFrom_length _ _ _ _
          · intro i hi
            exact memcpyFrom_getD _ _ _ _ _ hi
          · exact memcpyTo_length _ _ _ _
          · intro i hi
            exact memcpyTo_getD _ _ _ _ _ hi
  · have hr : st.read id buf n = (false, buf) := by
      unfold MemoryManager.read
      rw [if_pos h1]
    have hw : st.write id buf n = (false, st) := by
      unfold MemoryManager.write
      rw [if_pos h1]
    refine ⟨?_, ?_, ?_, ?_, ?_⟩
    · rw [hr]
      simp [h1]
    · rw [hw]
      simp [h1]
    · intro _
      rw [hr]
    · intro _
      rw [hw]
    · intro b hinit2 _ _
      exact absurd hinit2 h1

/-- Witness for C7: a successful 2-byte read out of `c7state`. -/
theorem c7_read_write_failure_semantics_witness :
    ((c7state.read 0 [9, 9] 2).1 = true) :=
  ((c7_read_write_failure_semantics c7state 0 [9, 9] 2).1).mpr
    ⟨rfl, ⟨⟨0, 0, 2⟩, by decide, by decide⟩⟩

/-! ### Computation lemmas for `allocate` (claims C3, C4, C8) -/

/-- When the first-pass scan hits, `allocate` is the carve operation on the
hit, under the claim-side guards. -/
lemma allocate_first_fit_eq {st : MemoryManager} {pre post : List Block} {hit : Block}
    {S : Nat} (hinit : st.is_init = true) (hS : 0 < S) (hSC : S ≤ st.size)
    (hff : findFirstFit S st.vacant = some (pre, hit, post)) :
    st.allocate S = st.allocHit pre hit post S := by
  have hv : st.vacant ≠ [] := by
    intro h
    rw [h] at hff
    simp [findFirstFit] at hff
  unfold MemoryManager.allocate
  rw [if_neg (by rw [hinit]; simp), if_neg (by omega),
    if_neg (by push_neg; exact ⟨by omega, hv⟩)]
  simp only [hff]

/-- When the first-pass scan misses, `allocate` defrags once and retries
against the front of the singleton vacancy list. -/
lemma allocate_no_fit_eq {st : MemoryManager} {S : Nat}
    (hinit : st.is_init = true) (hS : 0 < S) (hSC : S ≤ st.size)
    (hv : st.vacant ≠ []) (hff : findFirstFit S st.vacant = none) :
    st.allocate S =
      (if S ≤ st.size - (defragLoop st.mem st.in_use 0).2.2
       then st.defrag.allocHit [] ⟨-1, (defragLoop st.mem st.in_use 0).2.2,
         st.size - (defragLoop st.mem st.in_use 0).2.2⟩ [] S
       else (-1, st.defrag)) := by
  unfold MemoryManager.allocate
  rw [if_neg (by rw [hinit]; simp), if_neg (by omega),
    if_neg (by push_neg; exact ⟨by omega, hv⟩)]
  simp only [hff]
  show (match st.defrag.vacant with
    | hit :: post =>
      if S ≤ hit.size then st.defrag.allocHit [] hit post S else (-1, st.defrag)
    | [] => (-1, st.defrag)) = _
  rw [defrag_vacant]

lemma findFirstFit_singleton {S : Nat} {b : Block} (h : S ≤ b.size) :
    findFirstFit S [b] = some ([], b, []) := by
  unfold findFirstFit
  rw [if_pos h]

/-- Lemma: `allocate S` on a freshly initialized pool of capacity `C` carves
`[0, S)` and leaves the vacancy `[S, C)` (or nothing when `S = C`). -/
lemma allocate_fresh (a : List Nat) (C S : Nat) (i : Int) (hS : 0 < S) (hSC : S ≤ C) :
    (⟨a, [], true, i, C, [⟨-1, 0, C⟩]⟩ : MemoryManager).allocate S =
      (i, ⟨a, [⟨i, 0, S⟩], true, i + 1, C,
        if C - S = 0 then [] else [⟨-1, S, C - S⟩]⟩) := by
  rw [allocate_first_fit_eq rfl hS hSC (findFirstFit_singleton hSC)]
  unfold MemoryManager.allocHit
  simp only [List.nil_append, Nat.zero_add]

/-- Lemma: `free` of the single in-use block, with id 0. -/
lemma free_single (a : List Nat) (V : List Block) (C S : Nat) (j : Int) :
    (⟨a, [⟨0, 0, S⟩], true, j, C, V⟩ : MemoryManager).free 0 =
      (true, ⟨a, [], true, j, C, V ++ [⟨-1, 0, S⟩]⟩) := rfl

/-- The `.2` part of `init_mk0`. -/
lemma init_mk0_snd (a : List Nat) (C : Nat) (hC : 0 < C) :
    (MemoryManager.mk0.init (some a) C).2 = ⟨a, [], true, 0, C, [⟨-1, 0, C⟩]⟩ := by
  rw [init_mk0 a C hC]

/-- C4: on a freshly initialized pool of any capacity `C > 0`, `allocate C`
succeeds (it cannot fail), returning id 0 and producing the in-use block at
offset 0 of size `C` — the full-region allocation convention that owner and
client pools rely on to agree on the same bytes. -/
theorem c4_first_allocation (a : List Nat) (C : Nat) (hC : 0 < C) :
    ((MemoryManager.mk0.init (some a) C).2.allocate C).1 = 0 ∧
    ((MemoryManager.mk0.init (some a) C).2.allocate C).2.in_use = [⟨0, 0, C⟩] := by
  rw [init_mk0_snd a C hC, allocate_fresh a C C 0 hC (le_refl C)]
  exact ⟨rfl, rfl⟩

/-- Witness for C4 at capacity 3. -/
theorem c4_first_allocation_witness :
    0 < 3 ∧
    (((MemoryManager.mk0.init (some [0, 0, 0]) 3).2.allocate 3).1 = 0 ∧
     ((MemoryManager.mk0.init (some [0, 0, 0]) 3).2.allocate 3).2.in_use = [⟨0, 0, 3⟩]) :=
  ⟨by decide, c4_first_allocation [0, 0, 0] 3 (by decide)⟩

/-- C8: allocating a block of any size `0 < S ≤ C` from a freshly
initialized pool of capacity `C` succeeds with id 0, freeing that id
succeeds, and a subsequent `allocate C` of the whole capacity succeeds
(with id 1) — the pool state is equivalent to freshly initialized in the
sense the claim tests. -/
theorem c8_alloc_free_roundtrip (a : List Nat) (C S : Nat)
    (hC : 0 < C) (hS : 0 < S) (hSC : S ≤ C) :
    ((MemoryManager.mk0.init (some a) C).2.allocate S).1 = 0 ∧
    (((MemoryManager.mk0.init (some a) C).2.allocate S).2.free 0).1 = true ∧
    ((((MemoryManager.mk0.init (some a) C).2.allocate S).2.free 0).2.allocate C).1 = 1 := by
  rw [init_mk0_snd a C hC, allocate_fresh a C S 0 hS hSC]
  refine ⟨rfl, ?_, ?_⟩
  · show ((⟨a, [⟨0, 0, S⟩], true, 1, C,
        if C - S = 0 then [] else [⟨-1, S, C - S⟩]⟩ : MemoryManager).free 0).1 = true
    rw [free_single]
  · show (((⟨a, [⟨0, 0, S⟩], true, 1, C,
        if C - S = 0 then [] else [⟨-1, S, C - S⟩]⟩ : MemoryManager).free 0).2.allocate C).1 = 1
    rw [free_single]
    by_cases hCS : C - S = 0
    · have hSeq : S = C := by omega
      subst hSeq
      rw [if_pos hCS]
      show ((⟨a, [], true, 1, S, [⟨-1, 0, S⟩]⟩ : MemoryManager).allocate S).1 = 1
      rw [allocate_fresh a S S 1 hS (le_refl S)]
    · rw [if_neg hCS]
      show ((⟨a, [], true, 1, C, [⟨-1, S, C - S⟩, ⟨-1, 0, S⟩]⟩ :
        MemoryManager).allocate C).1 = 1
      have hff : findFirstFit C [(⟨-1, S, C - S⟩ : Block), ⟨-1, 0, S⟩] = none := by
        unfold findFirstFit
        rw [if_neg (show ¬ C ≤ (⟨-1, S, C - S⟩ : Block).size by show ¬ C ≤ C - S; omega)]
        unfold findFirstFit
        rw [if_neg (show ¬ C ≤ (⟨-1, 0, S⟩ : Block).size by show ¬ C ≤ S; omega)]
        rfl
      rw [allocate_no_fit_eq rfl hC (le_refl C) (by simp) hff]
      have hcur : (defragLoop a [] 0).2.2 = 0 := rfl
      rw [hcur, Nat.sub_zero, if_pos (le_refl C)]
      rfl

/-- Witness for C8 with capacity 3 and block size 2. -/
theorem c8_alloc_free_roundtrip_witness :
    ((MemoryManager.mk0.init (some [0, 0, 0]) 3).2.allocate 2).1 = 0 ∧
    (((MemoryManager.mk0.init (some [0, 0, 0]) 3).2.allocate 2).2.free 0).1 = true ∧
    ((((MemoryManager.mk0.init (some [0, 0, 0]) 3).2.allocate 2).2.free 0).2.allocate 3).1 = 1 :=
  c8_alloc_free_roundtrip [0, 0, 0] 3 2 (by decide) (by decide) (by decide)

/-- C3 counterexample: on the reachable state `c3state` — initialized, with
request `3` satisfying `0 < 3 ≤ capacity`, empty vacancy list and scattered
in-use blocks — `allocate` does NOT behave as the claim describes: it
returns `-1` immediately without running defragmentation, whereas the
algorithm of the claim (`allocateSpec`, its faithful rendering) runs defrag once
and leaves a compacted state with a single (here zero-sized) vacancy. -/
theorem c3_counterexample :
    c3state.is_init = true ∧ 0 < 3 ∧ 3 ≤ c3state.size ∧
    c3state.allocate 3 ≠ c3state.allocateSpec 3 ∧
    (c3state.allocate 3).2.vacant = [] ∧
    (c3state.allocateSpec 3).2.vacant = [⟨-1, 10, 0⟩] := by decide

/-- C3 amended: for every initialized allocator and request `0 < size ≤
capacity`, if the vacant list is nonempty then `allocate` behaves exactly
as the claim describes (`allocateSpec`): first-fit scan in list order,
carve at the first fit, else defrag once and retry against the resulting
single vacancy, returning `-1` with no second defrag if it is still too
small; if the vacant list is empty, `allocate` instead fails immediately
with `-1` and leaves the allocator unchanged (no defragmentation). -/
theorem c3_allocate_first_fit (st : MemoryManager) (size : Nat)
    (h1 : st.is_init = true) (h2 : 0 < size) (h3 : size ≤ st.size) :
    (st.vacant = [] → st.allocate size = (-1, st)) ∧
    (st.vacant ≠ [] → st.allocate size = st.allocateSpec size) := by
  constructor
  · intro hv
    unfold MemoryManager.allocate
    rw [if_neg (by rw [h1]; simp), if_neg (by omega), if_pos (Or.inr hv)]
  · intro hv
    cases hff : findFirstFit size st.vacant with
    | some t =>
      obtain ⟨pre, hit, post⟩ := t
      rw [allocate_first_fit_eq h1 h2 h3 hff]
      unfold MemoryManager.allocateSpec
      simp only [hff]
    | none =>
      rw [allocate_no_fit_eq h1 h2 h3 hv hff]
      unfold MemoryManager.allocateSpec
      simp only [hff]
      show _ = (match findFirstFit size st.defrag.vacant with
        | some (pre, hit, post) => st.defrag.allocHit pre hit post size
        | none => (-1, st.defrag))
      rw [defrag_vacant]
      unfold findFirstFit
      by_cases h4 : size ≤ st.size - (defragLoop st.mem st.in_use 0).2.2
      · rw [if_pos h4, if_pos h4]
      · rw [if_neg h4, if_neg h4]
        rfl

/-- Witness for the amended C3 on a fresh 2-byte pool. -/
theorem c3_allocate_first_fit_witness :
    (⟨[0, 0], [], true, 0, 2, [⟨-1, 0, 2⟩]⟩ : MemoryManager).allocate 1 =
      (⟨[0, 0], [], true, 0, 2, [⟨-1, 0, 2⟩]⟩ : MemoryManager).allocateSpec 1 :=
  (c3_allocate_first_fit _ 1 rfl (by decide) (by decide)).2 (by decide)

/-- C6: after `defrag` the vacancy list is exactly one block at offset
`Σ size(_in_use)` of size `capacity − Σ size(_in_use)`; the in-use blocks
keep their iteration order, their ids and their sizes; only offsets change,
each block moving to the monotonically advancing cursor (the sum of the
sizes of the blocks before it), starting from 0. -/
theorem c6_defrag_single_vacancy (st : MemoryManager)
    (hinit : st.is_init = true) (hS : sumSizes st.in_use ≤ st.size) :
    st.defrag.vacant = [⟨-1, sumSizes st.in_use, st.size - sumSizes st.in_use⟩] ∧
    st.defrag.in_use.map Block.id = st.in_use.map Block.id ∧
    st.defrag.in_use.map Block.size = st.in_use.map Block.size ∧
    ∀ i, ∀ h : i < st.defrag.in_use.length,
      (st.defrag.in_use.get ⟨i, h⟩).offset = sumSizes (st.in_use.take i) := by
  have hcur : (defragLoop st.mem st.in_use 0).2.2 = sumSizes st.in_use := by
    rw [defragLoop_cursor]
    omega
  refine ⟨?_, ?_, ?_, ?_⟩
  · rw [defrag_vacant, hcur]
  · exact defragLoop_map_id _ _ _
  · exact defragLoop_map_size _ _ _
  · intro i h
    show ((defragLoop st.mem st.in_use 0).2.1.get ⟨i, h⟩).offset =
      sumSizes (st.in_use.take i)
    have h0 := defragLoop_offset st.in_use st.mem 0 i h
    omega

/-- Witness for C6: defragging a 4-byte pool with two scattered blocks. -/
theorem c6_defrag_single_vacancy_witness :
    (⟨[5, 6, 7, 8], [⟨0, 2, 1⟩, ⟨1, 0, 1⟩], true, 2, 4, [⟨-1, 3, 1⟩, ⟨-1, 1, 1⟩]⟩ :
      MemoryManager).defrag.vacant = [⟨-1, 2, 2⟩] :=
  ((c6_defrag_single_vacancy _ rfl (by decide)).1).trans (by decide)

/-! ### Access policy (claim C2) -/

/-- C2 counterexample: the owner `c2owner` was created with declared access
`read_only` (and the creation succeeded), yet its `write` succeeds and
modifies the bytes of the region — `RemoteMemory::write` never consults the
access policy, so the "any segment (owner or client)" half of the claim fails. -/
theorem c2_counterexample :
    (RemoteMemory.mk0.create "x" access_t.read_only 4).1 = true ∧
    c2owner.access = access_t.read_only ∧
    (c2owner.write [7, 7] 2).1 = true ∧
    (c2owner.write [7, 7] 2).2.manager.mem ≠ c2owner.manager.mem := by decide

/-- C2 amended: for a Segment Client, `write` on a handle whose record was
attached with `read_only` access always fails and never modifies anything:
the access check (`access != read_write`) fires before any byte is touched.
The owner `write`, by contrast, performs no access check (see the
counterexample). -/
theorem c2_client_read_only_write_fails (st : MemoryClient) (id : Int)
    (buf : List Nat) (n : Nat) (pre post : List Server) (s : Server)
    (hs : lookupServerSplit id st.servers = some (pre, s, post))
    (hro : s.access = access_t.read_only) :
    st.write id buf n = (false, st) := by
  unfold MemoryClient.write
  simp only [hs]
  rw [if_pos (by rw [hro]; decide)]

/-- Witness for the amended C2: the one-record client `c2client`. -/
theorem c2_client_read_only_write_fails_witness :
    c2client.write 0 [9] 1 = (false, c2client) :=
  c2_client_read_only_write_fails c2client 0 [9] 1 [] []
    ⟨access_t.read_only, 0, 0, ⟨[5, 5], [⟨0, 0, 2⟩], true, 1, 2, []⟩, 0, "/x", 2⟩
    rfl rfl

/-! ### Client attach (claim C9) -/

/-- C9: `attach` fails on an empty name leaving the client unchanged; it
stores the given name normalized by prefixing the shared-memory separator
`/` when missing; it fails leaving the client unchanged whenever a record
with the same normalized name is already held; consequently a second attach
whose name normalizes to the same string — with or without the leading
separator — fails and leaves exactly the records that were there (the first
record) in place. -/
theorem c9_attach_normalization_and_duplicates (st : MemoryClient) (name : String)
    (access : access_t) (size : Nat) (region : List Nat) :
    (name.length = 0 → st.attach name access size region = (false, none, st)) ∧
    (normalizeName name ∈ st.servers.map Server.name →
      st.attach name access size region = (false, none, st)) ∧
    ((st.attach name access size region).1 = true →
      ∃ s, (st.attach name access size region).2.2.servers = st.servers ++ [s] ∧
        s.name = (if name.toList.head? = some '/' then name else "/" ++ name)) ∧
    (∀ name2 access2 size2 region2,
      (st.attach name access size region).1 = true →
      normalizeName name2 = normalizeName name →
      (st.attach name access size region).2.2.attach name2 access2 size2 region2 =
        (false, none, (st.attach name access size region).2.2)) := by
  have hsucc : (st.attach name access size region).1 = true →
      ∃ s, (st.attach name access size region).2.2 =
          ⟨st.last_id + 1, st.servers ++ [s]⟩ ∧
        s.name = normalizeName name := by
    intro hA
    simp only [MemoryClient.attach] at hA ⊢
    split_ifs at hA ⊢ with h1 h2 h3 h4 <;>
      first
        | exact ⟨⟨access, 0, st.last_id,
            ((MemoryManager.mk0.init (some region) size).2.allocate size).2,
            ((MemoryManager.mk0.init (some region) size).2.allocate size).1,
            normalizeName name, size⟩, rfl, rfl⟩
        | cases hA
  refine ⟨?_, ?_, ?_, ?_⟩
  · intro h
    unfold MemoryClient.attach
    rw [if_pos h]
  · intro hmem
    by_cases hn0 : name.length = 0
    · unfold MemoryClient.attach
      rw [if_pos hn0]
    · have hany : (st.servers.any (fun s => s.name = normalizeName name)) = true := by
        rw [List.any_eq_true]
        obtain ⟨s, hsmem, hsname⟩ := List.mem_map.mp hmem
        exact ⟨s, hsmem, by simp [hsname]⟩
      simp only [MemoryClient.attach]
      rw [if_neg hn0, if_pos hany]
  · intro hA
    obtain ⟨s, hs2, hsname⟩ := hsucc hA
    refine ⟨s, ?_, ?_⟩
    · rw [hs2]
    · rw [hsname]
      unfold normalizeName
      rfl
  · intro name2 access2 size2 region2 hA hnorm
    obtain ⟨s, hs2, hsname⟩ := hsucc hA
    rw [hs2]
    by_cases hn2 : name2.length = 0
    · unfold MemoryClient.attach
      rw [if_pos hn2]
    · have hany : ((st.servers ++ [s]).any (fun t => t.name = normalizeName name2)) = true := by
        rw [List.any_eq_true]
        refine ⟨s, by simp, ?_⟩
        simp [hsname, hnorm]
      simp only [MemoryClient.attach]
      rw [if_neg hn2, if_pos hany]

/-- Witness for C9: attaching with an empty name fails. -/
theorem c9_attach_witness :
    MemoryClient.mk0.attach "" access_t.read_write 4 [0, 0, 0, 0] =
      (false, none, MemoryClient.mk0) :=
  (c9_attach_normalization_and_duplicates MemoryClient.mk0 "" access_t.read_write 4
    [0, 0, 0, 0]).1 rfl

/-! ### Owner lifetime (claim C10) -/

/-- Lemma: `allocate` never changes the init flag. -/
lemma allocate_is_init (st : MemoryManager) (s : Nat) :
    (st.allocate s).2.is_init = st.is_init := by
  unfold MemoryManager.allocate
  split
  · rfl
  · split
    · rfl
    · split
      · rfl
      · split
        · rfl
        · show ((match st.defrag.vacant with
            | hit :: post =>
              if s ≤ hit.size then st.defrag.allocHit [] hit post s else (-1, st.defrag)
            | [] => (-1, st.defrag)).2).is_init = st.is_init
          rw [defrag_vacant]
          simp only
          split
          · rfl
          · rfl

/-- Lemma: `allocate` keeps an initialized manager initialized. -/
lemma allocate_snd_is_init_true {m : MemoryManager} {s : Nat} (hm : m.is_init = true) :
    (m.allocate s).2.is_init = true := by
  rw [allocate_is_init]
  exact hm

/-- Lemma: `create` on an already-created owner fails without touching anything. -/
lemma create_already {st : RemoteMemory} {name : String} {access : access_t}
    {size : Nat} (h0 : st.is_init = true) : st.create name access size = (false, st) := by
  have hif : st.initFields access name size = (false, st) := by
    unfold RemoteMemory.initFields
    rw [if_pos h0]
  simp [RemoteMemory.create, hif]

/-- Lemma: `create` with an empty name fails without touching anything. -/
lemma create_noname {st : RemoteMemory} {name : String} {access : access_t}
    {size : Nat} (h0 : ¬ st.is_init = true) (h1 : name.length = 0) :
    st.create name access size = (false, st) := by
  have hif : st.initFields access name size = (false, st) := by
    unfold RemoteMemory.initFields
    rw [if_neg h0, if_pos h1]
  simp [RemoteMemory.create, hif]

/-- The success case of the private `RemoteMemory::init`. -/
lemma initFields_success {st : RemoteMemory} {access : access_t} {name : String}
    {size : Nat} (h0 : ¬ st.is_init = true) (h1 : ¬ name.length = 0) :
    st.initFields access name size =
      (true, { st with access := access, fd := -1,
                       name := normalizeName name, size := size }) := by
  unfold RemoteMemory.initFields
  rw [if_neg h0, if_neg h1]

/-- Lemma: `create` on an owner whose member manager is already initialized fails:
the one-time `init` of the manager rejects re-initialization. -/
lemma create_manager_busy {st : RemoteMemory} {name : String} {access : access_t}
    {size : Nat} (h0 : ¬ st.is_init = true) (h1 : ¬ name.length = 0)
    (h2 : st.manager.is_init = true) :
    st.create name access size =
      (false, { st with access := access, fd := 0,
                        name := normalizeName name, size := size }) := by
  have hif := @initFields_success st access name size h0 h1
  have hmi : ∀ (ad : Option (List Nat)) (sz : Nat),
      st.manager.init ad sz = (false, st.manager) := by
    intro ad sz
    unfold MemoryManager.init
    rw [if_pos h2]
  simp [RemoteMemory.create, hif, hmi]

/-- Lemma: `MemoryManager.init` with size 0 fails without touching anything. -/
lemma init_size_zero (m : MemoryManager) (ad : Option (List Nat)) :
    m.init ad 0 = (false, m) := by
  unfold MemoryManager.init
  split
  · rfl
  · cases ad with
    | none => rfl
    | some a => rfl

/-- Lemma: `create` with size 0 fails (the `init` of the manager rejects it). -/
lemma create_size_zero {st : RemoteMemory} {name : String} {access : access_t}
    {size : Nat} (h0 : ¬ st.is_init = true) (h1 : ¬ name.length = 0) (h3 : size = 0) :
    st.create name access size =
      (false, { st with access := access, fd := 0,
                        name := normalizeName name, size := size }) := by
  subst h3
  have hif := @initFields_success st access name 0 h0 h1
  simp [RemoteMemory.create, hif, init_size_zero]

/-- Lemma: `create` fails whenever the member manager is already initialized. -/
lemma create_fails_of_manager_init {rm : RemoteMemory} {n : String} {a : access_t}
    {s : Nat} (h : rm.manager.is_init = true) : (rm.create n a s).1 = false := by
  by_cases h0 : rm.is_init = true
  · rw [create_already h0]
  · by_cases h1 : n.length = 0
    · rw [create_noname h0 h1]
    · rw [create_manager_busy h0 h1 h]

/-- Lemma: `create` never clears an initialized member manager. -/
lemma create_manager_is_init {rm : RemoteMemory} {n : String} {a : access_t} {s : Nat}
    (h : rm.manager.is_init = true) : (rm.create n a s).2.manager.is_init = true := by
  by_cases h0 : rm.is_init = true
  · rw [create_already h0]
    exact h
  · by_cases h1 : n.length = 0
    · rw [create_noname h0 h1]
      exact h
    · rw [create_manager_busy h0 h1 h]
      exact h

/-- A successful `create` leaves both the created flag of the owner and the
init flag of the member manager set. -/
lemma create_success_manager {st : RemoteMemory} {name : String} {access : access_t}
    {size : Nat} (h : (st.create name access size).1 = true) :
    (st.create name access size).2.manager.is_init = true ∧
    (st.create name access size).2.is_init = true := by
  by_cases h0 : st.is_init = true
  · rw [create_already h0] at h
    cases h
  · by_cases h1 : name.length = 0
    · rw [create_noname h0 h1] at h
      cases h
    · by_cases h2 : st.manager.is_init = true
      · rw [create_manager_busy h0 h1 h2] at h
        cases h
      · by_cases h3 : size = 0
        · rw [create_size_zero h0 h1 h3] at h
          cases h
        · have hif := @initFields_success st access name size h0 h1
          have hmi : st.manager.init (some (List.replicate size 0)) size =
              (true, { st.manager with mem := List.replicate size 0,
                                       size := size,
                                       vacant := st.manager.vacant ++ [⟨-1, 0, size⟩],
                                       is_init := true }) := by
            unfold MemoryManager.init
            rw [if_neg h2]
            show (if size = 0 then _ else _) = _
            rw [if_neg h3]
          simp only [RemoteMemory.create, hif, hmi] at h ⊢
          rw [if_neg (by simp), if_neg (by simp)] at h ⊢
          constructor
          · split
            · exact allocate_snd_is_init_true rfl
            · exact allocate_snd_is_init_true rfl
          · split at h
            · cases h
            · next h4 =>
              rw [if_neg h4]

/-- Every owner call preserves the init flag of the member manager. -/
lemma step_manager_is_init {rm : RemoteMemory} (h : rm.manager.is_init = true)
    (op : OwnerOp) : (rm.step op).manager.is_init = true := by
  cases op with
  | createOp n a s => exact create_manager_is_init h
  | destroyOp =>
    show ((rm.destroy).2).manager.is_init = true
    unfold RemoteMemory.destroy
    split
    · exact h
    · exact h
  | readOp b s => exact h
  | writeOp b s =>
    show ((if ¬ rm.is_init = true then (false, rm)
      else
        if (rm.manager.write rm.mem_id b s).1 = true then
          (true, { rm with manager := (rm.manager.write rm.mem_id b s).2 })
        else
          (false, { rm with manager := (rm.manager.write rm.mem_id b s).2 })).2).manager.is_init
      = true
    split
    · exact h
    · split
      · show ((rm.manager.write rm.mem_id b s).2).is_init = true
        rw [(write_preserves rm.manager rm.mem_id b s).2.2.2.1]
        exact h
      · show ((rm.manager.write rm.mem_id b s).2).is_init = true
        rw [(write_preserves rm.manager rm.mem_id b s).2.2.2.1]
        exact h

/-- Sequences of owner calls preserve the init flag of the member manager. -/
lemma run_manager_is_init {rm : RemoteMemory} (h : rm.manager.is_init = true)
    (ops : List OwnerOp) : (rm.run ops).manager.is_init = true := by
  induction ops generalizing rm with
  | nil => exact h
  | cons op rest ih => exact ih (step_manager_is_init h op)

/-- C10: over the lifetime of a `RemoteMemory` object, a successful `create` can
happen at most once: after a successful `create`, `destroy` succeeds, and
after any further sequence of calls — in particular create-destroy-create —
every `create` fails, because `destroy` clears the created flag of the owner but
never resets its pool, whose one-time `init` rejects re-initialization. -/
theorem c10_create_at_most_once (st : RemoteMemory) (name : String) (access : access_t)
    (size : Nat) (h : (st.create name access size).1 = true) :
    ((st.create name access size).2.destroy).1 = true ∧
    ∀ ops name2 access2 size2,
      (((st.create name access size).2.run ops).create name2 access2 size2).1 = false := by
  have hm := create_success_manager h
  constructor
  · unfold RemoteMemory.destroy
    rw [if_neg (by rw [hm.2]; simp)]
  · intro ops name2 access2 size2
    exact create_fails_of_manager_init (run_manager_is_init hm.1 ops)

/-- Witness for C10: create, destroy, then a failing second create. -/
theorem c10_create_at_most_once_witness :
    ((RemoteMemory.mk0.create "x" access_t.read_write 4).2.destroy).1 = true ∧
    (((RemoteMemory.mk0.create "x" access_t.read_write 4).2.run
      [OwnerOp.destroyOp]).create "x" access_t.read_write 4).1 = false := by
  have h := c10_create_at_most_once RemoteMemory.mk0 "x" access_t.read_write 4 (by decide)
  exact ⟨h.1, h.2 [OwnerOp.destroyOp] "x" access_t.read_write 4⟩

end SharedMemory
